import Mathlib

/-!
Verification development for the NordSecurityHomework scraper/parser system.

The embedding covers:
- `src/parser_service.py`: field extraction (`parse_product_page`), the durable
  store (`load_existing_books` / `save_books`), and the `ParseBook` RPC of
  `BookParserService`, including an interleaving semantics for concurrent calls
  that is faithful to asyncio cooperative scheduling (a coroutine can only be
  interleaved at an `await` point).
- `src/application/main.py`: the listing-page extractor
  (`parse_listing_page_with_next`), the retry wrappers (`fetch_text_with_retry`,
  `parse_book_with_retry`), the catalogue walker
  (`collect_all_books_from_catalog`), and the result-merger step at the end of
  `main`.

HTML documents are embedded structurally: a detail page is represented by the
pieces of markup the extractor actually reads (the h1 text, the availability
tag text, the product-information table rows), and a listing page by its
product pods and next-link anchor.  Conversion of price texts to IEEE floats
by Python `float` is not modelled (floating point); the cleaned numeral text
is kept instead, and no claim below inspects a price value.
-/

namespace BooksScraper

/-- A parsed book record, mirroring the dict built by `parse_product_page`
(src/parser_service.py lines 56-62).  The price fields hold the cleaned
numeral text produced by `parse_money`; the final conversion to a float is
not modelled. -/
structure Record where
  name : String
  availability : String
  upc : String
  price_excl_tax : String
  tax : String
deriving DecidableEq

/-- Structural embedding of a product detail page: exactly the pieces of
markup `parse_product_page` reads.  `name_text` is the stripped text of
`div.product_main h1` (none when the tag is absent), `availability_text` the
raw text of `p.instock.availability` (none when absent), `table_rows` the
(th, td) text pairs of the product-information table (none when the table is
absent; rows lacking a th or a td are already dropped, as the source skips
them). -/
structure ProductPage where
  name_text : Option String
  availability_text : Option String
  table_rows : Option (List (String × String))
deriving DecidableEq

/-- Splitting on whitespace runs, Python `str.split()` with no argument:
`acc` holds the current word reversed. -/
def splitWsAux : List Char → List Char → List (List Char)
  | [], acc => if acc.isEmpty then [] else [acc.reverse]
  | c :: cs, acc =>
    if c.isWhitespace then
      if acc.isEmpty then splitWsAux cs [] else acc.reverse :: splitWsAux cs []
    else splitWsAux cs (c :: acc)

/-- Joining a list of words with a separator, Python `sep.join(words)`. -/
def joinWith (sep : String) : List String → String
  | [] => ""
  | [x] => x
  | x :: xs => x ++ sep ++ joinWith sep xs

/-- Python `" ".join(text.split())`: split on whitespace runs, drop empties,
rejoin with single spaces (src/parser_service.py line 29). -/
def normSpaces (s : String) : String :=
  joinWith " " ((splitWsAux s.data []).map (fun cs => String.mk cs))

/-- Lookup in the `info` dict built by the row loop
(src/parser_service.py lines 36-41): later rows overwrite earlier ones, so
the last binding wins. -/
def dictGet (info : List (String × String)) (k : String) : Option String :=
  (info.reverse.find? (fun kv => kv.1 = k)).map (fun kv => kv.2)

/-- Removing every occurrence of one character, Python
`text.replace(target, "")` for a one-character target. -/
def removeChar (target : Char) : List Char → List Char
  | [] => []
  | c :: cs => if c = target then removeChar target cs else c :: removeChar target cs

/-- Dropping leading whitespace; applied from both ends it is Python
`str.strip()`. -/
def dropLeadingWs : List Char → List Char
  | [] => []
  | c :: cs => if c.isWhitespace then dropLeadingWs cs else c :: cs

/-- Python `str.strip()`. -/
def pyStrip (s : String) : String :=
  String.mk ((dropLeadingWs (dropLeadingWs s.data).reverse).reverse)

/-- Strip the pound sign and surrounding whitespace
(src/parser_service.py lines 14-16), Python
`text.replace("£", "").strip()`.  The Python code additionally converts the
result with `float`; that numeric conversion is not modelled. -/
def parse_money (text : String) : String :=
  pyStrip (String.mk (removeChar (Char.ofNat 163) text.data))

/-- The missing-field list computed at src/parser_service.py lines 49-53. -/
def computeMissing (name availability : String) (info : List (String × String)) : List String :=
  (["name", "availability", "UPC", "Price (excl. tax)", "Tax"]).filter (fun k =>
    (k == "name" && name == "")
    || (k == "availability" && availability == "")
    || ((dictGet info k).isSome && (dictGet info k).getD "" == "")
    || ((dictGet info k).isNone && k != "name" && k != "availability"))

/-- Extraction failures raised by `parse_product_page` (as `ValueError`). -/
inductive ParseErr
  | tableMissing
  | missingFields (missing : List String)
deriving DecidableEq

/-- Embedding of `parse_product_page` (src/parser_service.py lines 19-62):
read name and availability with empty-string defaults, fail if the product
table is absent, build the info dict, read UPC and the two price texts, and
fail with the missing-field list when any required field is empty. -/
def parse_product_page (page : ProductPage) : Except ParseErr Record :=
  let name := page.name_text.getD ""
  let availability := (page.availability_text.map normSpaces).getD ""
  match page.table_rows with
  | none => .error .tableMissing
  | some rows =>
    let upc := (dictGet rows "UPC").getD ""
    let price_excl := (dictGet rows "Price (excl. tax)").getD ""
    let tax := (dictGet rows "Tax").getD ""
    if name = "" ∨ availability = "" ∨ upc = "" ∨ price_excl = "" ∨ tax = "" then
      .error (.missingFields (computeMissing name availability rows))
    else
      .ok { name := name, availability := availability, upc := upc,
            price_excl_tax := parse_money price_excl, tax := parse_money tax }

/-- Outcome of one `ParseBook` RPC as observed by the client.  The source
signals `alreadyExists` and `invalidArgument` through `context.abort`
(src/parser_service.py lines 89 and 108); the attached message strings are
not modelled. -/
inductive RpcOutcome
  | ok (r : Record)
  | alreadyExists
  | invalidArgument
deriving DecidableEq

/-- Server-side shared state: the in-memory `seen_upcs` set of
`BookParserService` and the content of the durable store file
`parsed_books.json` (which `load_existing_books` reads and `save_books`
overwrites). -/
structure ServerState where
  seen_upcs : List String
  store : List Record
deriving DecidableEq

/-- Service construction after (re)start (src/parser_service.py lines 78-80):
`seen_upcs` starts empty; the store file keeps whatever content is on disk.
Note the constructor does not read the store file. -/
def initServer (file : List Record) : ServerState :=
  { seen_upcs := [], store := file }

/-- The body of `ParseBook` from the duplicate check onward, for a call whose
extraction already succeeded with record `parsed`
(src/parser_service.py lines 87-104).  `saveOk` is false when `save_books`
raises (for example a file-system error); the raised exception is caught by
the handler at line 106 and surfaced as `invalidArgument`, with `seen_upcs`
left holding the key.  In the asyncio execution model this whole region runs
without any suspension point once the lock is held (lock release,
`load_existing_books`, `save_books` and the return are all synchronous), so
it is one atomic step; see `stepCall` below. -/
def commitSegment (st : ServerState) (parsed : Record) (saveOk : Bool) :
    ServerState × RpcOutcome :=
  if parsed.upc ∈ st.seen_upcs then
    (st, .alreadyExists)
  else
    let st1 : ServerState := { st with seen_upcs := parsed.upc :: st.seen_upcs }
    if st1.store.any (fun b => b.upc == parsed.upc) then
      (st1, .ok parsed)
    else if saveOk then
      ({ st1 with store := st1.store ++ [parsed] }, .ok parsed)
    else
      (st1, .invalidArgument)

/-- One complete `ParseBook` call executed without interleaving
(src/parser_service.py lines 82-108): extract, fail with `invalidArgument`
on a `ValueError`, otherwise run the duplicate check and persistence
segment. -/
def parseBookStep (st : ServerState) (page : ProductPage) (saveOk : Bool) :
    ServerState × RpcOutcome :=
  match parse_product_page page with
  | .error _ => (st, .invalidArgument)
  | .ok parsed => commitSegment st parsed saveOk

/-! ### Retry wrappers (src/application/main.py lines 67-82 and 111-125) -/

/-- Status codes of a grpc `AioRpcError` as relevant to this system. -/
inductive GrpcCode
  | alreadyExists
  | invalidArgument
  | unavailable
  | internal
deriving DecidableEq

/-- Observable trace of one run of a retry wrapper around a fallible
operation: the final result (`Except.error none` models Python
`raise last_exc` with `last_exc` still `None`, which only happens when the
attempt budget is zero), the number of times the wrapped operation was
invoked, and the sequence of back-off sleeps performed, in seconds. -/
structure RetryTrace (E A : Type) where
  result : Except (Option E) A
  calls : Nat
  delays : List ℚ

/-- The retry loop shared verbatim by `fetch_text_with_retry`
(src/application/main.py lines 74-82) and `parse_book_with_retry`
(lines 117-125): `remaining` is the number of loop iterations left and
`attempt` the 0-based index of the current attempt, so a top-level call uses
`remaining = retries` and `attempt = 0`.  On success return immediately; on
failure record it as `last_exc`, sleep `base_delay * 2 ^ attempt` unless this
was the final iteration, and continue; after the loop re-raise `last_exc`.
`op k` is the outcome the wrapped operation would produce on its k-th
invocation. -/
def retryLoop (op : Nat → Except E A) (base_delay : ℚ) :
    Nat → Nat → Option E → RetryTrace E A
  | 0, _, last => { result := .error last, calls := 0, delays := [] }
  | remaining + 1, attempt, _ =>
    match op attempt with
    | .ok a => { result := .ok a, calls := 1, delays := [] }
    | .error e =>
      let rest := retryLoop op base_delay remaining (attempt + 1) (some e)
      { result := rest.result
        calls := rest.calls + 1
        delays := (if remaining ≠ 0 then [base_delay * 2 ^ attempt] else []) ++ rest.delays }

/-- Embedding of `fetch_text_with_retry` (src/application/main.py
lines 67-82): the transport fetch is wrapped in the retry loop; any
exception from the fetch is caught and retried. -/
def fetch_text_with_retry (op : Nat → Except E A) (retries : Nat) (base_delay : ℚ) :
    RetryTrace E A :=
  retryLoop op base_delay retries 0 none

/-- Embedding of `parse_book_with_retry` (src/application/main.py
lines 111-125): the remote `ParseBook` call is wrapped in the same retry
loop; any `AioRpcError` — whatever its status code — is caught and retried.
`op k` gives the outcome of the k-th invocation of the stub call. -/
def parse_book_with_retry (op : Nat → Except GrpcCode A) (retries : Nat) (base_delay : ℚ) :
    RetryTrace GrpcCode A :=
  retryLoop op base_delay retries 0 none

/-! ### Result Merger (src/application/main.py lines 204-215) -/

/-- The loop at src/application/main.py lines 208-212: walk `fresh` keeping
records whose upc is not yet in `upcs`, adding each kept upc to the set as it
goes. -/
def addNewItems (fresh : List Record) (upcs : List String) : List Record :=
  match fresh with
  | [] => []
  | i :: rest =>
    if i.upc ∈ upcs then addNewItems rest upcs
    else i :: addNewItems rest (i.upc :: upcs)

/-- The merge step at the end of `main` (src/application/main.py lines
204-214): collect the upcs of the existing output set, drop fresh records
whose upc is already present (or was kept earlier in the same merge), and
append the survivors to `existing`. -/
def merge_records (existing fresh : List Record) : List Record :=
  existing ++ addNewItems fresh (existing.map (fun item => item.upc))

/-- Modelled from the spec words of section 4.6, for comparison with
`merge_records`: a fresh record is kept exactly when its `unique_key` occurs
neither among the existing keys nor in ANY earlier fresh record; `earlier`
accumulates the keys of all fresh records already scanned, kept or not. -/
def freshKeptSpec (existingKeys : List String) : List Record → List String → List Record
  | [], _ => []
  | i :: rest, earlier =>
    if i.upc ∈ existingKeys ∨ i.upc ∈ earlier then
      freshKeptSpec existingKeys rest (i.upc :: earlier)
    else
      i :: freshKeptSpec existingKeys rest (i.upc :: earlier)

/-! ### Listing-page extraction and catalogue walking
(src/application/main.py lines 36-56 and 128-140) -/

/-- An anchor tag as read by the listing extractor: its `title` and `href`
attributes, each possibly absent. -/
structure Anchor where
  title : Option String
  href : Option String
deriving DecidableEq

/-- One `article.product_pod` element.  `h3a` is the anchor found by
`book.find("h3").find("a")`; `none` models the markup defects under which
that chain raises (missing h3 gives `AttributeError` on `None.find`, missing
anchor gives a `None` subscript) before any attribute is read. -/
structure Pod where
  h3a : Option Anchor
deriving DecidableEq

/-- A listing page as read by `parse_listing_page_with_next`: its product
pods in document order and the `li.next a` anchor, if any. -/
structure ListingPage where
  pods : List Pod
  next_a : Option Anchor
deriving DecidableEq

/-- A listing entry, the dict appended at src/application/main.py
lines 47-50. -/
structure ListingBook where
  name : String
  book_url : String
deriving DecidableEq

/-- Extract one pod (the loop body at src/application/main.py lines 40-50):
reading a missing h3/anchor raises `AttributeError`, a missing `title` or
`href` attribute raises `KeyError`; there is no per-entry handler, so the
error propagates.  `uj` stands for `urllib.parse.urljoin`, applied
uninterpreted. -/
def extractPod (uj : String → String → String) (current_url : String) (pod : Pod) :
    Except String ListingBook :=
  match pod.h3a with
  | none => .error "AttributeError"
  | some a =>
    match a.title with
    | none => .error "KeyError: title"
    | some name =>
      match a.href with
      | none => .error "KeyError: href"
      | some link => .ok { name := name, book_url := uj current_url link }

/-- Embedding of `parse_listing_page_with_next` (src/application/main.py
lines 36-56): extract every pod in order — the first raising pod aborts the
whole page — then compute the next-page URL from the `li.next a` anchor
(absent anchor, absent `href`, or empty `href` give `none`, since
`next_tag.get("href")` must be truthy). -/
def nextUrlOf (uj : String → String → String) (current_url : String)
    (next_a : Option Anchor) : Option String :=
  match next_a with
  | some a =>
    match a.href with
    | some h => if h = "" then none else some (uj current_url h)
    | none => none
  | none => none

def parse_listing_page_with_next (uj : String → String → String)
    (page : ListingPage) (current_url : String) :
    Except String (List ListingBook × Option String) :=
  match page.pods.mapM (extractPod uj current_url) with
  | .error e => .error e
  | .ok books => .ok (books, nextUrlOf uj current_url page.next_a)

/-- A pod from which both loop reads succeed. -/
def Pod.wellFormed (pod : Pod) : Prop :=
  ∃ a name link, pod.h3a = some a ∧ a.title = some name ∧ a.href = some link

/-- The while loop of `collect_all_books_from_catalog`
(src/application/main.py lines 128-140), with the catalogue modelled as a
total map `world` from URL to listing page (every fetch succeeds; a fetch
that exhausts its retries is fatal to the walk and out of scope here).  The
`current` argument is the current URL (`none` models Python `None`; the loop
guard `while current_url` also stops on an empty string, which is falsy).
Besides the accumulated entries the model returns the number of loop
iterations executed and the final `current_url`, which the source holds in
locals `pages` and `current_url`. -/
def collectLoop (uj : String → String → String) (world : String → ListingPage) :
    Option String → Nat → Except String (List ListingBook × Nat × Option String)
  | none, _ => .ok ([], 0, none)
  | some url, 0 => .ok ([], 0, some url)
  | some url, remaining + 1 =>
    if url = "" then .ok ([], 0, some url)
    else
      match parse_listing_page_with_next uj (world url) url with
      | .error e => .error e
      | .ok (books, next_url) =>
        match collectLoop uj world next_url remaining with
        | .error e => .error e
        | .ok (rest, p, fin) => .ok (books ++ rest, p + 1, fin)

/-- Embedding of `collect_all_books_from_catalog` (src/application/main.py
lines 128-140): run the loop from `start_url` with at most `max_pages`
iterations. -/
def collect_all_books_from_catalog (uj : String → String → String)
    (world : String → ListingPage) (start_url : String) (max_pages : Nat) :
    Except String (List ListingBook × Nat × Option String) :=
  collectLoop uj world (some start_url) max_pages

/-! ### Interleaving semantics for concurrent ParseBook calls

The service runs on one asyncio event loop (grpc.aio), so a handler can only
be interleaved with another at a suspension point.  Inside `ParseBook`
(src/parser_service.py lines 82-108) the suspension points are the awaited
lock acquisition and the abort; everything from the duplicate check to the
return — lock release, `load_existing_books`, the store-membership check,
`save_books` and building the response — is synchronous and therefore runs
as one atomic region.  A call is accordingly modelled as two atomic steps:
extraction (`ready` to `parsed`, shared state untouched), and the commit
region (`parsed` to `finished`, executing `commitSegment`).  A schedule is
an arbitrary sequence of call indices; stepping a finished or out-of-range
index is a no-op, so every interleaving of any number of concurrent calls is
a schedule. -/

/-- Progress of one in-flight `ParseBook` call. -/
inductive Phase
  | ready
  | parsed (res : Except ParseErr Record)
  | finished (o : RpcOutcome)

/-- One remote call: the detail-page content submitted, and whether the
`save_books` write would succeed if this call reaches it. -/
structure Call where
  page : ProductPage
  saveOk : Bool

/-- Global state of the service plus the progress of every in-flight call
(`phases i` for indices with no call stays `ready` forever). -/
structure SysState where
  server : ServerState
  phases : Nat → Phase

/-- Pointwise update of the phase map. -/
def updPhase (f : Nat → Phase) (i : Nat) (v : Phase) : Nat → Phase :=
  fun j => if j = i then v else f j

/-- Service state when the process starts with `file` on disk: fresh
`seen_upcs`, all calls still to run. -/
def initSys (file : List Record) : SysState :=
  { server := initServer file, phases := fun _ => .ready }

/-- Execute the next atomic step of call `i` (no-op if the index carries no
call or the call already finished). -/
def stepCall (calls : List Call) (st : SysState) (i : Nat) : SysState :=
  match calls[i]? with
  | none => st
  | some c =>
    match st.phases i with
    | .ready => { st with phases := updPhase st.phases i (.parsed (parse_product_page c.page)) }
    | .parsed (.error _) => { st with phases := updPhase st.phases i (.finished .invalidArgument) }
    | .parsed (.ok parsed) =>
      let p := commitSegment st.server parsed c.saveOk
      { server := p.1, phases := updPhase st.phases i (.finished p.2) }
    | .finished _ => st

/-- Run the calls under an arbitrary interleaving `sched`. -/
def runSched (calls : List Call) (file : List Record) (sched : List Nat) : SysState :=
  sched.foldl (stepCall calls) (initSys file)

/-- Every call has reached its final outcome. -/
def Completes (calls : List Call) (st : SysState) : Prop :=
  ∀ i, i < calls.length → ∃ o, st.phases i = .finished o

/-- The inductive invariant of the service run, phrased on the state
components: `seen` and `store` are the server state, `ph` the phase map, and
`file` the store content at process start. -/
structure Inv (calls : List Call) (file : List Record) (seen : List String)
    (store : List Record) (ph : Nat → Phase) : Prop where
  dom : ∀ i, calls[i]? = none → ph i = .ready
  parsedInv : ∀ i res, ph i = .parsed res →
    ∃ c, calls[i]? = some c ∧ parse_product_page c.page = res
  okInv : ∀ i c r, calls[i]? = some c → ph i = .finished (.ok r) →
    parse_product_page c.page = .ok r ∧ r.upc ∈ seen ∧
      (c.saveOk = true → r.upc ∉ file.map (fun b => b.upc) → r ∈ store)
  aeInv : ∀ i c, calls[i]? = some c → ph i = .finished .alreadyExists →
    ∃ r, parse_product_page c.page = .ok r ∧ r.upc ∈ seen
  iaInv : ∀ i c r, calls[i]? = some c → ph i = .finished .invalidArgument →
    parse_product_page c.page = .ok r → c.saveOk = false ∧ r.upc ∈ seen
  seenInv : ∀ k, k ∈ seen →
    ∃ i c r o, calls[i]? = some c ∧ parse_product_page c.page = .ok r ∧ r.upc = k ∧
      ph i = .finished o ∧ o ≠ .alreadyExists
  uniq : ∀ i j ci cj ri rj, calls[i]? = some ci → calls[j]? = some cj →
    ph i = .finished (.ok ri) → ph j = .finished (.ok rj) →
    ri.upc = rj.upc → i = j
  storeSrc : ∀ b, b ∈ store →
    b ∈ file ∨ ∃ i, ph i = .finished (.ok b)
  storePre : ∃ t, store = file ++ t

/-- The invariant read off a full system state. -/
def SysInv (calls : List Call) (file : List Record) (st : SysState) : Prop :=
  Inv calls file st.server.seen_upcs st.server.store st.phases

/-! ### Concrete pages used to instantiate the theorems -/

/-- A well-formed detail page whose UPC is "K". -/
def pageK : ProductPage :=
  { name_text := some "BookK"
    availability_text := some "In stock"
    table_rows := some [("UPC", "K"), ("Price (excl. tax)", "1.00"), ("Tax", "0.00")] }

/-- The record `parse_product_page` extracts from `pageK`. -/
def recK : Record :=
  { name := "BookK", availability := "In stock", upc := "K"
    price_excl_tax := "1.00", tax := "0.00" }

/-- A well-formed detail page whose UPC is "L". -/
def pageL : ProductPage :=
  { name_text := some "BookL"
    availability_text := some "In stock"
    table_rows := some [("UPC", "L"), ("Price (excl. tax)", "2.00"), ("Tax", "0.00")] }

/-- The record `parse_product_page` extracts from `pageL`. -/
def recL : Record :=
  { name := "BookL", availability := "In stock", upc := "L"
    price_excl_tax := "2.00", tax := "0.00" }

/-- A transport operation that fails on attempts 0 and 1 and succeeds on
attempt 2. -/
def op3 : Nat → Except Nat Nat := fun k => if k = 2 then .ok 7 else .error k

/-- A remote-call operation that fails with AlreadyExists on every
attempt. -/
def opAE : Nat → Except GrpcCode Unit := fun _ => .error .alreadyExists

/-- Stored record with unique key A. -/
def recA : Record :=
  { name := "Alpha", availability := "In stock", upc := "A", price_excl_tax := "1", tax := "0" }

/-- Stored record with unique key B. -/
def recB : Record :=
  { name := "Bravo", availability := "In stock", upc := "B", price_excl_tax := "2", tax := "0" }

/-- A freshly scraped record that repeats key B with different payload. -/
def recB2 : Record :=
  { name := "BravoBis", availability := "On order", upc := "B", price_excl_tax := "9", tax := "1" }

/-- Freshly scraped record with unique key C. -/
def recC : Record :=
  { name := "Charlie", availability := "In stock", upc := "C", price_excl_tax := "3", tax := "0" }

/-- A well-formed product pod. -/
def goodPod : Pod := { h3a := some { title := some "Good", href := some "good.html" } }

/-- A second well-formed product pod. -/
def goodPod2 : Pod := { h3a := some { title := some "Fine", href := some "fine.html" } }

/-- A malformed pod: the h3/anchor chain is broken, so reading it raises. -/
def badPod : Pod := { h3a := none }

/-- A listing page holding one good and one malformed pod. -/
def pageWithBad : ListingPage := { pods := [goodPod, badPod], next_a := none }

/-- A urljoin stand-in that returns the relative part unchanged. -/
def ujKeep : String → String → String := fun _ r => r

/-- A urljoin stand-in that never returns the empty string. -/
def ujSafe : String → String → String := fun _ r => String.mk ('u' :: r.data)

/-- A one-entry listing page with the given book title/link and optional
next-page link. -/
def listPage (title url : String) (next : Option String) : ListingPage :=
  { pods := [{ h3a := some { title := some title, href := some url } }]
    next_a := next.map (fun n => { title := none, href := some n }) }

/-- A catalogue of five chained listing pages; the fifth has no next link;
every other URL resolves to an empty page with no next link. -/
def world5 : String → ListingPage := fun u =>
  if u = "p1" then listPage "B1" "u1" (some "p2")
  else if u = "p2" then listPage "B2" "u2" (some "p3")
  else if u = "p3" then listPage "B3" "u3" (some "p4")
  else if u = "p4" then listPage "B4" "u4" (some "p5")
  else if u = "p5" then listPage "B5" "u5" none
  else { pods := [], next_a := none }

/-- The entries of the whole 5-page chain. -/
def books5all : List ListingBook :=
  [{ name := "B1", book_url := "u1" }, { name := "B2", book_url := "u2" },
   { name := "B3", book_url := "u3" }, { name := "B4", book_url := "u4" },
   { name := "B5", book_url := "u5" }]

/-- The entries of the first three pages of the chain. -/
def books5first3 : List ListingBook :=
  [{ name := "B1", book_url := "u1" }, { name := "B2", book_url := "u2" },
   { name := "B3", book_url := "u3" }]

theorem retryLoop_calls_le (op : Nat → Except E A) (base : ℚ) :
    ∀ remaining attempt last, (retryLoop op base remaining attempt last).calls ≤ remaining := by
  intro remaining
  induction remaining with
  | zero => intro attempt last; simp [retryLoop]
  | succ n ih =>
    intro attempt last
    simp only [retryLoop]
    cases h : op attempt with
    | ok a => simp
    | error e =>
      simpa using Nat.succ_le_succ (ih (attempt + 1) (some e))

theorem retryLoop_first_success (op : Nat → Except E A) (base : ℚ) :
    ∀ j remaining attempt last a, j < remaining →
      (∀ k, k < j → ∃ e, op (attempt + k) = .error e) →
      op (attempt + j) = .ok a →
      retryLoop op base remaining attempt last =
        { result := .ok a, calls := j + 1,
          delays := (List.range j).map (fun k => base * 2 ^ (attempt + k)) } := by
  intro j
  induction j with
  | zero =>
    intro remaining attempt last a hlt hfail hok
    obtain ⟨m, rfl⟩ := Nat.exists_eq_add_of_lt hlt
    simp only [retryLoop]
    rw [show attempt + 0 = attempt from rfl] at hok
    rw [hok]
    simp
  | succ j ih =>
    intro remaining attempt last a hlt hfail hok
    obtain ⟨m, rfl⟩ := Nat.exists_eq_add_of_lt hlt
    obtain ⟨e, he⟩ := hfail 0 (Nat.succ_pos j)
    have he2 : op attempt = .error e := by simpa using he
    simp only [retryLoop, he2]
    have hrec := ih (j + 1 + m) (attempt + 1) (some e) a (by omega)
      (fun k hk => by
        obtain ⟨e3, he3⟩ := hfail (k + 1) (by omega)
        refine ⟨e3, ?_⟩
        have hx : attempt + 1 + k = attempt + (k + 1) := by omega
        rw [hx]; exact he3)
      (by
        have hx : attempt + 1 + j = attempt + (j + 1) := by omega
        rw [hx]; exact hok)
    rw [hrec]
    have hm : j + 1 + m ≠ 0 := by omega
    rw [if_pos hm]
    simp only [RetryTrace.mk.injEq, List.singleton_append, true_and]
    rw [List.range_succ_eq_map, List.map_cons, List.map_map]
    have hhead : base * 2 ^ attempt = base * 2 ^ (attempt + 0) := by norm_num
    have htail : List.map (fun k => base * 2 ^ (attempt + 1 + k)) (List.range j)
        = List.map ((fun k => base * 2 ^ (attempt + k)) ∘ Nat.succ) (List.range j) := by
      refine List.map_congr_left (fun k _ => ?_)
      simp only [Function.comp_apply]
      have hx : attempt + 1 + k = attempt + Nat.succ k := by omega
      rw [hx]
    rw [hhead, htail]

theorem retryLoop_all_fail (op : Nat → Except E A) (base : ℚ) :
    ∀ remaining attempt last, 1 ≤ remaining →
      (∀ k, k < remaining → ∃ e, op (attempt + k) = .error e) →
      ∃ e, op (attempt + (remaining - 1)) = .error e ∧
        retryLoop op base remaining attempt last =
          { result := .error (some e), calls := remaining,
            delays := (List.range (remaining - 1)).map (fun k => base * 2 ^ (attempt + k)) } := by
  intro remaining
  induction remaining with
  | zero => intro attempt last h; omega
  | succ n ih =>
    intro attempt last _ hfail
    obtain ⟨e, he⟩ := hfail 0 (Nat.succ_pos n)
    have he2 : op attempt = .error e := by simpa using he
    rcases Nat.eq_zero_or_pos n with hn | hn
    · subst hn
      exact ⟨e, by simpa using he2, by simp [retryLoop, he2]⟩
    · obtain ⟨e2, he3, hrec⟩ := ih (attempt + 1) (some e) hn
        (fun k hk => by
          obtain ⟨e4, he4⟩ := hfail (k + 1) (by omega)
          refine ⟨e4, ?_⟩
          have hx : attempt + 1 + k = attempt + (k + 1) := by omega
          rw [hx]; exact he4)
      refine ⟨e2, ?_, ?_⟩
      · have hx : attempt + (n + 1 - 1) = attempt + 1 + (n - 1) := by omega
        rw [hx]; exact he3
      · simp only [retryLoop, he2]
        rw [hrec]
        have hm : n ≠ 0 := by omega
        rw [if_pos hm]
        simp only [RetryTrace.mk.injEq, List.singleton_append, true_and]
        have hr : n + 1 - 1 = (n - 1) + 1 := by omega
        rw [hr, List.range_succ_eq_map, List.map_cons, List.map_map]
        have hhead : base * 2 ^ attempt = base * 2 ^ (attempt + 0) := by norm_num
        have htail : List.map (fun k => base * 2 ^ (attempt + 1 + k)) (List.range (n - 1))
            = List.map ((fun k => base * 2 ^ (attempt + k)) ∘ Nat.succ) (List.range (n - 1)) := by
          refine List.map_congr_left (fun k _ => ?_)
          simp only [Function.comp_apply]
          have hx : attempt + 1 + k = attempt + Nat.succ k := by omega
          rw [hx]
        rw [hhead, htail]

theorem addNewItems_eq_spec (ex : List String) :
    ∀ (fresh : List Record) (acc earlier : List String),
      (∀ k, k ∈ acc ↔ k ∈ ex ∨ k ∈ earlier) →
      addNewItems fresh acc = freshKeptSpec ex fresh earlier := by
  intro fresh
  induction fresh with
  | nil => intro acc earlier _; rfl
  | cons i rest ih =>
    intro acc earlier hacc
    simp only [addNewItems, freshKeptSpec]
    by_cases hmem : i.upc ∈ acc
    · rw [if_pos hmem, if_pos ((hacc i.upc).mp hmem)]
      exact ih acc (i.upc :: earlier) (fun k => by
        rw [hacc k]
        constructor
        · rintro (h | h)
          · exact Or.inl h
          · exact Or.inr (List.mem_cons_of_mem _ h)
        · rintro (h | h)
          · exact Or.inl h
          · rcases List.mem_cons.mp h with h | h
            · subst h; exact (hacc i.upc).mp hmem
            · exact Or.inr h)
    · rw [if_neg hmem, if_neg (fun h => hmem ((hacc i.upc).mpr h))]
      refine congrArg _ ?_
      exact ih (i.upc :: acc) (i.upc :: earlier) (fun k => by
        simp only [List.mem_cons, hacc k]
        constructor
        · rintro (h | h | h)
          · exact Or.inr (Or.inl h)
          · exact Or.inl h
          · exact Or.inr (Or.inr h)
        · rintro (h | h)
          · exact Or.inr (Or.inl h)
          · rcases h with h | h
            · exact Or.inl h
            · exact Or.inr (Or.inr h))

/-- When every fresh upc is already among the existing upcs, nothing is
added. -/
theorem addNewItems_all_dup :
    ∀ (fresh : List Record) (acc : List String),
      (∀ i ∈ fresh, i.upc ∈ acc) → addNewItems fresh acc = [] := by
  intro fresh
  induction fresh with
  | nil => intro acc _; rfl
  | cons i rest ih =>
    intro acc h
    simp only [addNewItems, if_pos (h i (List.mem_cons_self i rest))]
    exact ih acc (fun j hj => h j (List.mem_cons_of_mem i hj))

/-- Every fresh upc appears among the upcs of the merged output. -/
theorem mem_merge_upcs :
    ∀ (fresh : List Record) (existing : List Record) (i : Record), i ∈ fresh →
      i.upc ∈ (merge_records existing fresh).map (fun item => item.upc) := by
  have haux : ∀ (fresh : List Record) (acc : List String) (i : Record), i ∈ fresh →
      i.upc ∈ acc ∨ i.upc ∈ (addNewItems fresh acc).map (fun item => item.upc) := by
    intro fresh
    induction fresh with
    | nil => intro acc i h; cases h
    | cons j rest ih =>
      intro acc i h
      rcases List.mem_cons.mp h with h | h
      · subst h
        simp only [addNewItems]
        by_cases hj : i.upc ∈ acc
        · rw [if_pos hj]; exact Or.inl hj
        · rw [if_neg hj]; right; simp
      · simp only [addNewItems]
        by_cases hj : j.upc ∈ acc
        · rw [if_pos hj]; exact ih acc i h
        · rw [if_neg hj]
          rcases ih (j.upc :: acc) i h with hc | hc
          · rcases List.mem_cons.mp hc with hc | hc
            · right; rw [hc]; simp
            · exact Or.inl hc
          · right; simp only [List.map_cons, List.mem_cons]; exact Or.inr hc
  intro fresh existing i h
  unfold merge_records
  rw [List.map_append, List.mem_append]
  rcases haux fresh (existing.map (fun item => item.upc)) i h with hc | hc
  · exact Or.inl hc
  · exact Or.inr hc

theorem nextUrlOf_ne_empty (uj : String → String → String) (current_url : String)
    (next_a : Option Anchor) (hne : ∀ b r, uj b r ≠ "") :
    ∀ u, nextUrlOf uj current_url next_a = some u → u ≠ "" := by
  intro u hu
  cases next_a with
  | none => simp [nextUrlOf] at hu
  | some a =>
    cases hh : a.href with
    | none => simp [nextUrlOf, hh] at hu
    | some s =>
      by_cases hs : s = ""
      · simp [nextUrlOf, hh, hs] at hu
      · simp only [nextUrlOf, hh] at hu
        rw [if_neg hs] at hu
        injection hu with hu2
        rw [← hu2]
        exact hne current_url s

theorem collectLoop_pages_le (uj : String → String → String) (world : String → ListingPage) :
    ∀ remaining current bs p fin,
      collectLoop uj world current remaining = .ok (bs, p, fin) → p ≤ remaining := by
  intro remaining
  induction remaining with
  | zero =>
    intro current bs p fin h
    cases current <;> simp only [collectLoop] at h <;>
      · injection h with h2; injection h2 with _ h3; injection h3 with h4 _; omega
  | succ n ih =>
    intro current bs p fin h
    cases current with
    | none =>
      simp only [collectLoop] at h
      injection h with h2; injection h2 with _ h3; injection h3 with h4 _; omega
    | some url =>
      simp only [collectLoop] at h
      split at h
      · injection h with h2; injection h2 with _ h3; injection h3 with h4 _; omega
      · split at h
        · cases h
        · split at h
          · cases h
          · rename_i rest p2 fin2 hr
            injection h with h2; injection h2 with _ h3; injection h3 with h4 _
            have := ih _ rest p2 fin2 hr
            omega

theorem collectLoop_stop (uj : String → String → String) (world : String → ListingPage)
    (hne : ∀ b r, uj b r ≠ "") :
    ∀ remaining current bs p fin,
      (∀ u, current = some u → u ≠ "") →
      collectLoop uj world current remaining = .ok (bs, p, fin) →
      p = remaining ∨ fin = none := by
  intro remaining
  induction remaining with
  | zero =>
    intro current bs p fin hcur h
    cases current <;> simp only [collectLoop] at h <;>
      · injection h with h2; injection h2 with _ h3; injection h3 with h4 h5; omega
  | succ n ih =>
    intro current bs p fin hcur h
    cases current with
    | none =>
      simp only [collectLoop] at h
      injection h with h2; injection h2 with _ h3; injection h3 with _ h5
      exact Or.inr h5.symm
    | some url =>
      simp only [collectLoop] at h
      rw [if_neg (hcur url rfl)] at h
      split at h
      · cases h
      · rename_i books next_url hp
        have hnext : ∀ u, next_url = some u → u ≠ "" := by
          unfold parse_listing_page_with_next at hp
          split at hp
          · cases hp
          · injection hp with hp2
            injection hp2 with _ hp3
            rw [← hp3]
            exact nextUrlOf_ne_empty uj url (world url).next_a hne
        split at h
        · cases h
        · rename_i rest p2 fin2 hr
          injection h with h2
          injection h2 with _ h3
          injection h3 with h4 h5
          rcases ih next_url rest p2 fin2 hnext hr with hc | hc
          · left; omega
          · right; rw [← h5]; exact hc

theorem inv_init (calls : List Call) (file : List Record) : SysInv calls file (initSys file) := by
  refine ⟨?_, ?_, ?_, ?_, ?_, ?_, ?_, ?_, ?_⟩
  · intro i _; rfl
  · intro i res h; cases h
  · intro i c r _ h; cases h
  · intro i c _ h; cases h
  · intro i c r _ h; cases h
  · intro k h; cases h
  · intro i j ci cj ri rj _ _ h; cases h
  · intro b h
    exact Or.inl h
  · exact ⟨[], (List.append_nil file).symm⟩

theorem updPhase_self (f : Nat → Phase) (i : Nat) (v : Phase) : updPhase f i v i = v := by
  simp [updPhase]

theorem updPhase_other (f : Nat → Phase) (i : Nat) (v : Phase) (j : Nat) (h : j ≠ i) :
    updPhase f i v j = f j := by
  simp [updPhase, h]

theorem commitSegment_cases (st : ServerState) (parsed : Record) (saveOk : Bool) :
    (parsed.upc ∈ st.seen_upcs ∧ commitSegment st parsed saveOk = (st, .alreadyExists))
    ∨ (parsed.upc ∉ st.seen_upcs ∧ (∃ b ∈ st.store, b.upc = parsed.upc) ∧
        commitSegment st parsed saveOk =
          ({ seen_upcs := parsed.upc :: st.seen_upcs, store := st.store }, .ok parsed))
    ∨ (parsed.upc ∉ st.seen_upcs ∧ (∀ b ∈ st.store, b.upc ≠ parsed.upc) ∧ saveOk = true ∧
        commitSegment st parsed saveOk =
          ({ seen_upcs := parsed.upc :: st.seen_upcs, store := st.store ++ [parsed] },
            .ok parsed))
    ∨ (parsed.upc ∉ st.seen_upcs ∧ (∀ b ∈ st.store, b.upc ≠ parsed.upc) ∧ saveOk = false ∧
        commitSegment st parsed saveOk =
          ({ seen_upcs := parsed.upc :: st.seen_upcs, store := st.store },
            .invalidArgument)) := by
  unfold commitSegment
  by_cases h1 : parsed.upc ∈ st.seen_upcs
  · exact Or.inl ⟨h1, by rw [if_pos h1]⟩
  · right
    by_cases h2 : st.store.any (fun b => b.upc == parsed.upc) = true
    · left
      refine ⟨h1, ?_, by rw [if_neg h1, if_pos h2]⟩
      obtain ⟨b, hb, hbe⟩ := List.any_eq_true.mp h2
      exact ⟨b, hb, by simpa using hbe⟩
    · right
      have h2' : ∀ b ∈ st.store, b.upc ≠ parsed.upc := by
        intro b hb heq
        exact h2 (List.any_eq_true.mpr ⟨b, hb, by simpa using heq⟩)
      have h2f : st.store.any (fun b => b.upc == parsed.upc) = false :=
        Bool.eq_false_iff.mpr h2
      cases saveOk with
      | true =>
        left
        refine ⟨h1, h2', rfl, ?_⟩
        rw [if_neg h1]
        dsimp only
        rw [h2f]
        rfl
      | false =>
        right
        refine ⟨h1, h2', rfl, ?_⟩
        rw [if_neg h1]
        dsimp only
        rw [h2f]
        rfl

theorem inv_step (calls : List Call) (file : List Record) (st : SysState)
    (h : SysInv calls file st) (i : Nat) : SysInv calls file (stepCall calls st i) := by
  unfold SysInv at h
  cases hc : calls[i]? with
  | none =>
    have hs : stepCall calls st i = st := by
      simp only [stepCall, hc]
    rw [hs]; exact h
  | some c =>
    cases hph : st.phases i with
    | ready =>
      have hs : stepCall calls st i =
          { st with phases := updPhase st.phases i (.parsed (parse_product_page c.page)) } := by
        simp only [stepCall, hc, hph]
      unfold SysInv
      rw [hs]
      dsimp only
      refine ⟨?_, ?_, ?_, ?_, ?_, ?_, ?_, ?_, h.storePre⟩
      · intro j hj
        have hne : j ≠ i := fun he => by rw [he, hc] at hj; cases hj
        rw [updPhase_other _ _ _ _ hne]
        exact h.dom j hj
      · intro j res hj
        by_cases hji : j = i
        · subst hji
          rw [updPhase_self] at hj
          injection hj with hj2
          exact ⟨c, hc, hj2⟩
        · rw [updPhase_other _ _ _ _ hji] at hj
          exact h.parsedInv j res hj
      · intro j cj r hcj hj
        by_cases hji : j = i
        · subst hji; rw [updPhase_self] at hj; cases hj
        · rw [updPhase_other _ _ _ _ hji] at hj
          exact h.okInv j cj r hcj hj
      · intro j cj hcj hj
        by_cases hji : j = i
        · subst hji; rw [updPhase_self] at hj; cases hj
        · rw [updPhase_other _ _ _ _ hji] at hj
          exact h.aeInv j cj hcj hj
      · intro j cj r hcj hj hpar
        by_cases hji : j = i
        · subst hji; rw [updPhase_self] at hj; cases hj
        · rw [updPhase_other _ _ _ _ hji] at hj
          exact h.iaInv j cj r hcj hj hpar
      · intro k hk
        obtain ⟨i0, c0, r0, o0, hc0, hp0, hu0, hf0, ho0⟩ := h.seenInv k hk
        have hne : i0 ≠ i := fun he => by rw [he, hph] at hf0; cases hf0
        exact ⟨i0, c0, r0, o0, hc0, hp0, hu0, by rw [updPhase_other _ _ _ _ hne]; exact hf0, ho0⟩
      · intro j k cj ck rj rk hcj hck hj hk hu
        have hjne : j ≠ i := fun he => by rw [he, updPhase_self] at hj; cases hj
        have hkne : k ≠ i := fun he => by rw [he, updPhase_self] at hk; cases hk
        rw [updPhase_other _ _ _ _ hjne] at hj
        rw [updPhase_other _ _ _ _ hkne] at hk
        exact h.uniq j k cj ck rj rk hcj hck hj hk hu
      · intro b hb
        rcases h.storeSrc b hb with hf | ⟨i0, hf0⟩
        · exact Or.inl hf
        · have hne : i0 ≠ i := fun he => by rw [he, hph] at hf0; cases hf0
          exact Or.inr ⟨i0, by rw [updPhase_other _ _ _ _ hne]; exact hf0⟩
    | parsed res =>
      obtain ⟨c2, hc2, hpar2⟩ := h.parsedInv i res hph
      rw [hc] at hc2
      injection hc2 with hc2
      subst hc2
      cases res with
      | error e =>
        have hs : stepCall calls st i =
            { st with phases := updPhase st.phases i (.finished .invalidArgument) } := by
          simp only [stepCall, hc, hph]
        unfold SysInv
        rw [hs]
        dsimp only
        refine ⟨?_, ?_, ?_, ?_, ?_, ?_, ?_, ?_, h.storePre⟩
        · intro j hj
          have hne : j ≠ i := fun he => by rw [he, hc] at hj; cases hj
          rw [updPhase_other _ _ _ _ hne]
          exact h.dom j hj
        · intro j r2 hj
          by_cases hji : j = i
          · subst hji; rw [updPhase_self] at hj; cases hj
          · rw [updPhase_other _ _ _ _ hji] at hj
            exact h.parsedInv j r2 hj
        · intro j cj r hcj hj
          by_cases hji : j = i
          · subst hji; rw [updPhase_self] at hj
            injection hj with hj2; cases hj2
          · rw [updPhase_other _ _ _ _ hji] at hj
            exact h.okInv j cj r hcj hj
        · intro j cj hcj hj
          by_cases hji : j = i
          · subst hji; rw [updPhase_self] at hj
            injection hj with hj2; cases hj2
          · rw [updPhase_other _ _ _ _ hji] at hj
            exact h.aeInv j cj hcj hj
        · intro j cj r hcj hj hpar
          by_cases hji : j = i
          · subst hji
            rw [hc] at hcj
            injection hcj with hcj
            subst hcj
            rw [hpar] at hpar2
            cases hpar2
          · rw [updPhase_other _ _ _ _ hji] at hj
            exact h.iaInv j cj r hcj hj hpar
        · intro k hk
          obtain ⟨i0, c0, r0, o0, hc0, hp0, hu0, hf0, ho0⟩ := h.seenInv k hk
          have hne : i0 ≠ i := fun he => by rw [he, hph] at hf0; cases hf0
          exact ⟨i0, c0, r0, o0, hc0, hp0, hu0, by rw [updPhase_other _ _ _ _ hne]; exact hf0, ho0⟩
        · intro j k cj ck rj rk hcj hck hj hk hu
          have hjne : j ≠ i := fun he => by
            rw [he, updPhase_self] at hj
            injection hj with hj2; cases hj2
          have hkne : k ≠ i := fun he => by
            rw [he, updPhase_self] at hk
            injection hk with hk2; cases hk2
          rw [updPhase_other _ _ _ _ hjne] at hj
          rw [updPhase_other _ _ _ _ hkne] at hk
          exact h.uniq j k cj ck rj rk hcj hck hj hk hu
        · intro b hb
          rcases h.storeSrc b hb with hf | ⟨i0, hf0⟩
          · exact Or.inl hf
          · have hne : i0 ≠ i := fun he => by rw [he, hph] at hf0; cases hf0
            exact Or.inr ⟨i0, by rw [updPhase_other _ _ _ _ hne]; exact hf0⟩
      | ok parsed =>
        rcases commitSegment_cases st.server parsed c.saveOk with
          ⟨hmem, hcs⟩ | ⟨hmem, ⟨b0, hb0, hbu0⟩, hcs⟩ | ⟨hmem, hnodup, hsave, hcs⟩ |
          ⟨hmem, hnodup, hsave, hcs⟩
        -- already-seen: state unchanged, call i finishes alreadyExists
        · have hs : stepCall calls st i =
              { server := st.server,
                phases := updPhase st.phases i (.finished .alreadyExists) } := by
            simp only [stepCall, hc, hph, hcs]
          unfold SysInv
          rw [hs]
          dsimp only
          refine ⟨?_, ?_, ?_, ?_, ?_, ?_, ?_, ?_, h.storePre⟩
          · intro j hj
            have hne : j ≠ i := fun he => by rw [he, hc] at hj; cases hj
            rw [updPhase_other _ _ _ _ hne]
            exact h.dom j hj
          · intro j r2 hj
            by_cases hji : j = i
            · subst hji; rw [updPhase_self] at hj; cases hj
            · rw [updPhase_other _ _ _ _ hji] at hj
              exact h.parsedInv j r2 hj
          · intro j cj r hcj hj
            by_cases hji : j = i
            · subst hji; rw [updPhase_self] at hj
              injection hj with hj2; cases hj2
            · rw [updPhase_other _ _ _ _ hji] at hj
              exact h.okInv j cj r hcj hj
          · intro j cj hcj hj
            by_cases hji : j = i
            · subst hji
              rw [hc] at hcj
              injection hcj with hcj
              subst hcj
              exact ⟨parsed, hpar2, hmem⟩
            · rw [updPhase_other _ _ _ _ hji] at hj
              exact h.aeInv j cj hcj hj
          · intro j cj r hcj hj hpar
            by_cases hji : j = i
            · subst hji; rw [updPhase_self] at hj
              injection hj with hj2; cases hj2
            · rw [updPhase_other _ _ _ _ hji] at hj
              exact h.iaInv j cj r hcj hj hpar
          · intro k hk
            obtain ⟨i0, c0, r0, o0, hc0, hp0, hu0, hf0, ho0⟩ := h.seenInv k hk
            have hne : i0 ≠ i := fun he => by rw [he, hph] at hf0; cases hf0
            exact ⟨i0, c0, r0, o0, hc0, hp0, hu0, by rw [updPhase_other _ _ _ _ hne]; exact hf0, ho0⟩
          · intro j k cj ck rj rk hcj hck hj hk hu
            have hjne : j ≠ i := fun he => by
              rw [he, updPhase_self] at hj
              injection hj with hj2; cases hj2
            have hkne : k ≠ i := fun he => by
              rw [he, updPhase_self] at hk
              injection hk with hk2; cases hk2
            rw [updPhase_other _ _ _ _ hjne] at hj
            rw [updPhase_other _ _ _ _ hkne] at hk
            exact h.uniq j k cj ck rj rk hcj hck hj hk hu
          · intro b hb
            rcases h.storeSrc b hb with hf | ⟨i0, hf0⟩
            · exact Or.inl hf
            · have hne : i0 ≠ i := fun he => by rw [he, hph] at hf0; cases hf0
              exact Or.inr ⟨i0, by rw [updPhase_other _ _ _ _ hne]; exact hf0⟩
        -- key fresh but already persisted: key recorded as seen, store kept, call i returns ok
        · have hs : stepCall calls st i =
              { server := { seen_upcs := parsed.upc :: st.server.seen_upcs,
                            store := st.server.store },
                phases := updPhase st.phases i (.finished (.ok parsed)) } := by
            simp only [stepCall, hc, hph, hcs]
          unfold SysInv
          rw [hs]
          dsimp only
          refine ⟨?_, ?_, ?_, ?_, ?_, ?_, ?_, ?_, h.storePre⟩
          · intro j hj
            have hne : j ≠ i := fun he => by rw [he, hc] at hj; cases hj
            rw [updPhase_other _ _ _ _ hne]
            exact h.dom j hj
          · intro j r2 hj
            by_cases hji : j = i
            · subst hji; rw [updPhase_self] at hj; cases hj
            · rw [updPhase_other _ _ _ _ hji] at hj
              exact h.parsedInv j r2 hj
          · intro j cj r hcj hj
            by_cases hji : j = i
            · subst hji
              rw [hc] at hcj
              injection hcj with hcj
              subst hcj
              rw [updPhase_self] at hj
              injection hj with hj2
              injection hj2 with hj3
              subst hj3
              refine ⟨hpar2, List.mem_cons_self _ _, ?_⟩
              intro hsv hfile
              exfalso
              rcases h.storeSrc b0 hb0 with hbf | ⟨i0, hf0⟩
              · exact hfile (by rw [← hbu0]; exact List.mem_map_of_mem _ hbf)
              · have hc0 : ∃ c0, calls[i0]? = some c0 := by
                  cases hcc : calls[i0]? with
                  | none => rw [h.dom i0 hcc] at hf0; cases hf0
                  | some c0 => exact ⟨c0, rfl⟩
                obtain ⟨c0, hc0⟩ := hc0
                have := (h.okInv i0 c0 b0 hc0 hf0).2.1
                rw [hbu0] at this
                exact hmem this
            · rw [updPhase_other _ _ _ _ hji] at hj
              obtain ⟨hp1, hp2, hp3⟩ := h.okInv j cj r hcj hj
              exact ⟨hp1, List.mem_cons_of_mem _ hp2, hp3⟩
          · intro j cj hcj hj
            by_cases hji : j = i
            · subst hji; rw [updPhase_self] at hj
              injection hj with hj2; cases hj2
            · rw [updPhase_other _ _ _ _ hji] at hj
              obtain ⟨r, hr1, hr2⟩ := h.aeInv j cj hcj hj
              exact ⟨r, hr1, List.mem_cons_of_mem _ hr2⟩
          · intro j cj r hcj hj hpar
            by_cases hji : j = i
            · subst hji; rw [updPhase_self] at hj
              injection hj with hj2; cases hj2
            · rw [updPhase_other _ _ _ _ hji] at hj
              obtain ⟨hr1, hr2⟩ := h.iaInv j cj r hcj hj hpar
              exact ⟨hr1, List.mem_cons_of_mem _ hr2⟩
          · intro k hk
            rcases List.mem_cons.mp hk with hk | hk
            · subst hk
              exact ⟨i, c, parsed, .ok parsed, hc, hpar2, rfl, updPhase_self _ _ _,
                fun hcon => by cases hcon⟩
            · obtain ⟨i0, c0, r0, o0, hc0, hp0, hu0, hf0, ho0⟩ := h.seenInv k hk
              have hne : i0 ≠ i := fun he => by rw [he, hph] at hf0; cases hf0
              exact ⟨i0, c0, r0, o0, hc0, hp0, hu0,
                by rw [updPhase_other _ _ _ _ hne]; exact hf0, ho0⟩
          · intro j k cj ck rj rk hcj hck hj hk hu
            by_cases hji : j = i
            · by_cases hki : k = i
              · rw [hji, hki]
              · subst hji
                rw [updPhase_self] at hj
                injection hj with hj2
                injection hj2 with hj3
                rw [updPhase_other _ _ _ _ hki] at hk
                have hcc : ∃ c0, calls[k]? = some c0 := ⟨ck, hck⟩
                have hk2 := (h.okInv k ck rk hck hk).2.1
                exfalso
                apply hmem
                rw [← hu, ← hj3] at hk2
                exact hk2
            · by_cases hki : k = i
              · subst hki
                rw [updPhase_self] at hk
                injection hk with hk2
                injection hk2 with hk3
                rw [updPhase_other _ _ _ _ hji] at hj
                have hj2 := (h.okInv j cj rj hcj hj).2.1
                exfalso
                apply hmem
                rw [hu, ← hk3] at hj2
                exact hj2
              · rw [updPhase_other _ _ _ _ hji] at hj
                rw [updPhase_other _ _ _ _ hki] at hk
                exact h.uniq j k cj ck rj rk hcj hck hj hk hu
          · intro b hb
            rcases h.storeSrc b hb with hf | ⟨i0, hf0⟩
            · exact Or.inl hf
            · have hne : i0 ≠ i := fun he => by rw [he, hph] at hf0; cases hf0
              exact Or.inr ⟨i0, by rw [updPhase_other _ _ _ _ hne]; exact hf0⟩
        -- fresh key, persisted now: key recorded, record appended, call i returns ok
        · have hs : stepCall calls st i =
              { server := { seen_upcs := parsed.upc :: st.server.seen_upcs,
                            store := st.server.store ++ [parsed] },
                phases := updPhase st.phases i (.finished (.ok parsed)) } := by
            simp only [stepCall, hc, hph, hcs]
          unfold SysInv
          rw [hs]
          dsimp only
          refine ⟨?_, ?_, ?_, ?_, ?_, ?_, ?_, ?_, ?_⟩
          · intro j hj
            have hne : j ≠ i := fun he => by rw [he, hc] at hj; cases hj
            rw [updPhase_other _ _ _ _ hne]
            exact h.dom j hj
          · intro j r2 hj
            by_cases hji : j = i
            · subst hji; rw [updPhase_self] at hj; cases hj
            · rw [updPhase_other _ _ _ _ hji] at hj
              exact h.parsedInv j r2 hj
          · intro j cj r hcj hj
            by_cases hji : j = i
            · subst hji
              rw [hc] at hcj
              injection hcj with hcj
              subst hcj
              rw [updPhase_self] at hj
              injection hj with hj2
              injection hj2 with hj3
              subst hj3
              exact ⟨hpar2, List.mem_cons_self _ _,
                fun _ _ => List.mem_append_right _ (List.mem_singleton.mpr rfl)⟩
            · rw [updPhase_other _ _ _ _ hji] at hj
              obtain ⟨hp1, hp2, hp3⟩ := h.okInv j cj r hcj hj
              exact ⟨hp1, List.mem_cons_of_mem _ hp2,
                fun hsv hfl => List.mem_append_left _ (hp3 hsv hfl)⟩
          · intro j cj hcj hj
            by_cases hji : j = i
            · subst hji; rw [updPhase_self] at hj
              injection hj with hj2; cases hj2
            · rw [updPhase_other _ _ _ _ hji] at hj
              obtain ⟨r, hr1, hr2⟩ := h.aeInv j cj hcj hj
              exact ⟨r, hr1, List.mem_cons_of_mem _ hr2⟩
          · intro j cj r hcj hj hpar
            by_cases hji : j = i
            · subst hji; rw [updPhase_self] at hj
              injection hj with hj2; cases hj2
            · rw [updPhase_other _ _ _ _ hji] at hj
              obtain ⟨hr1, hr2⟩ := h.iaInv j cj r hcj hj hpar
              exact ⟨hr1, List.mem_cons_of_mem _ hr2⟩
          · intro k hk
            rcases List.mem_cons.mp hk with hk | hk
            · subst hk
              exact ⟨i, c, parsed, .ok parsed, hc, hpar2, rfl, updPhase_self _ _ _,
                fun hcon => by cases hcon⟩
            · obtain ⟨i0, c0, r0, o0, hc0, hp0, hu0, hf0, ho0⟩ := h.seenInv k hk
              have hne : i0 ≠ i := fun he => by rw [he, hph] at hf0; cases hf0
              exact ⟨i0, c0, r0, o0, hc0, hp0, hu0,
                by rw [updPhase_other _ _ _ _ hne]; exact hf0, ho0⟩
          · intro j k cj ck rj rk hcj hck hj hk hu
            by_cases hji : j = i
            · by_cases hki : k = i
              · rw [hji, hki]
              · subst hji
                rw [updPhase_self] at hj
                injection hj with hj2
                injection hj2 with hj3
                rw [updPhase_other _ _ _ _ hki] at hk
                have hk2 := (h.okInv k ck rk hck hk).2.1
                exfalso
                apply hmem
                rw [← hu, ← hj3] at hk2
                exact hk2
            · by_cases hki : k = i
              · subst hki
                rw [updPhase_self] at hk
                injection hk with hk2
                injection hk2 with hk3
                rw [updPhase_other _ _ _ _ hji] at hj
                have hj2 := (h.okInv j cj rj hcj hj).2.1
                exfalso
                apply hmem
                rw [hu, ← hk3] at hj2
                exact hj2
              · rw [updPhase_other _ _ _ _ hji] at hj
                rw [updPhase_other _ _ _ _ hki] at hk
                exact h.uniq j k cj ck rj rk hcj hck hj hk hu
          · intro b hb
            rcases List.mem_append.mp hb with hb | hb
            · rcases h.storeSrc b hb with hf | ⟨i0, hf0⟩
              · exact Or.inl hf
              · have hne : i0 ≠ i := fun he => by rw [he, hph] at hf0; cases hf0
                exact Or.inr ⟨i0, by rw [updPhase_other _ _ _ _ hne]; exact hf0⟩
            · right
              refine ⟨i, ?_⟩
              rw [List.mem_singleton.mp hb, updPhase_self]
          · obtain ⟨t, ht⟩ := h.storePre
            exact ⟨t ++ [parsed], by rw [ht, List.append_assoc]⟩
        -- fresh key but the save raises: key stays seen, store untouched, invalidArgument
        · have hs : stepCall calls st i =
              { server := { seen_upcs := parsed.upc :: st.server.seen_upcs,
                            store := st.server.store },
                phases := updPhase st.phases i (.finished .invalidArgument) } := by
            simp only [stepCall, hc, hph, hcs]
          unfold SysInv
          rw [hs]
          dsimp only
          refine ⟨?_, ?_, ?_, ?_, ?_, ?_, ?_, ?_, h.storePre⟩
          · intro j hj
            have hne : j ≠ i := fun he => by rw [he, hc] at hj; cases hj
            rw [updPhase_other _ _ _ _ hne]
            exact h.dom j hj
          · intro j r2 hj
            by_cases hji : j = i
            · subst hji; rw [updPhase_self] at hj; cases hj
            · rw [updPhase_other _ _ _ _ hji] at hj
              exact h.parsedInv j r2 hj
          · intro j cj r hcj hj
            by_cases hji : j = i
            · subst hji; rw [updPhase_self] at hj
              injection hj with hj2; cases hj2
            · rw [updPhase_other _ _ _ _ hji] at hj
              obtain ⟨hp1, hp2, hp3⟩ := h.okInv j cj r hcj hj
              exact ⟨hp1, List.mem_cons_of_mem _ hp2, hp3⟩
          · intro j cj hcj hj
            by_cases hji : j = i
            · subst hji; rw [updPhase_self] at hj
              injection hj with hj2; cases hj2
            · rw [updPhase_other _ _ _ _ hji] at hj
              obtain ⟨r, hr1, hr2⟩ := h.aeInv j cj hcj hj
              exact ⟨r, hr1, List.mem_cons_of_mem _ hr2⟩
          · intro j cj r hcj hj hpar
            by_cases hji : j = i
            · subst hji
              rw [hc] at hcj
              injection hcj with hcj
              subst hcj
              rw [hpar] at hpar2
              injection hpar2 with hpar3
              subst hpar3
              exact ⟨hsave, List.mem_cons_self _ _⟩
            · rw [updPhase_other _ _ _ _ hji] at hj
              obtain ⟨hr1, hr2⟩ := h.iaInv j cj r hcj hj hpar
              exact ⟨hr1, List.mem_cons_of_mem _ hr2⟩
          · intro k hk
            rcases List.mem_cons.mp hk with hk | hk
            · subst hk
              exact ⟨i, c, parsed, .invalidArgument, hc, hpar2, rfl, updPhase_self _ _ _,
                fun hcon => by cases hcon⟩
            · obtain ⟨i0, c0, r0, o0, hc0, hp0, hu0, hf0, ho0⟩ := h.seenInv k hk
              have hne : i0 ≠ i := fun he => by rw [he, hph] at hf0; cases hf0
              exact ⟨i0, c0, r0, o0, hc0, hp0, hu0,
                by rw [updPhase_other _ _ _ _ hne]; exact hf0, ho0⟩
          · intro j k cj ck rj rk hcj hck hj hk hu
            have hjne : j ≠ i := fun he => by
              rw [he, updPhase_self] at hj
              injection hj with hj2; cases hj2
            have hkne : k ≠ i := fun he => by
              rw [he, updPhase_self] at hk
              injection hk with hk2; cases hk2
            rw [updPhase_other _ _ _ _ hjne] at hj
            rw [updPhase_other _ _ _ _ hkne] at hk
            exact h.uniq j k cj ck rj rk hcj hck hj hk hu
          · intro b hb
            rcases h.storeSrc b hb with hf | ⟨i0, hf0⟩
            · exact Or.inl hf
            · have hne : i0 ≠ i := fun he => by rw [he, hph] at hf0; cases hf0
              exact Or.inr ⟨i0, by rw [updPhase_other _ _ _ _ hne]; exact hf0⟩
    | finished o =>
      have hs : stepCall calls st i = st := by
        simp only [stepCall, hc, hph]
      unfold SysInv
      rw [hs]
      exact h

theorem inv_run (calls : List Call) (file : List Record) (sched : List Nat) :
    SysInv calls file (runSched calls file sched) := by
  unfold runSched
  have haux : ∀ (l : List Nat) (st : SysState), SysInv calls file st →
      SysInv calls file (l.foldl (stepCall calls) st) := by
    intro l
    induction l with
    | nil => intro st h; exact h
    | cons a t ih => intro st h; exact ih _ (inv_step calls file st h a)
  exact haux sched _ (inv_init calls file)

theorem stepCall_store_mono (calls : List Call) (st : SysState) (i : Nat) :
    ∃ t, (stepCall calls st i).server.store = st.server.store ++ t := by
  cases hc : calls[i]? with
  | none => exact ⟨[], by simp [stepCall, hc]⟩
  | some c =>
    cases hph : st.phases i with
    | ready => exact ⟨[], by simp [stepCall, hc, hph]⟩
    | parsed res =>
      cases res with
      | error e => exact ⟨[], by simp [stepCall, hc, hph]⟩
      | ok parsed =>
        rcases commitSegment_cases st.server parsed c.saveOk with
          ⟨_, hcs⟩ | ⟨_, _, hcs⟩ | ⟨_, _, _, hcs⟩ | ⟨_, _, _, hcs⟩
        · exact ⟨[], by simp [stepCall, hc, hph, hcs]⟩
        · exact ⟨[], by simp [stepCall, hc, hph, hcs]⟩
        · exact ⟨[parsed], by simp [stepCall, hc, hph, hcs]⟩
        · exact ⟨[], by simp [stepCall, hc, hph, hcs]⟩
    | finished o => exact ⟨[], by simp [stepCall, hc, hph]⟩

theorem runSched_store_mono (calls : List Call) (file : List Record) (s t : List Nat) :
    ∃ u, (runSched calls file (s ++ t)).server.store =
      (runSched calls file s).server.store ++ u := by
  unfold runSched
  rw [List.foldl_append]
  generalize s.foldl (stepCall calls) (initSys file) = st
  induction t generalizing st with
  | nil => exact ⟨[], by simp⟩
  | cons a t2 ih =>
    obtain ⟨u1, hu1⟩ := stepCall_store_mono calls st a
    obtain ⟨u2, hu2⟩ := ih (stepCall calls st a)
    exact ⟨u1 ++ u2, by rw [List.foldl_cons, hu2, hu1, List.append_assoc]⟩

theorem parse_pageK : parse_product_page pageK = .ok recK := by rfl

theorem parse_pageL : parse_product_page pageL = .ok recL := by rfl

/-! ### Claim C4 -/

/-- C4: the Result Merger returns `existing` unchanged with exactly those
fresh records appended, in scraped order, whose unique key occurs neither in
`existing` nor in an earlier fresh record (first conjunct: `merge_records`
coincides with the spec-worded filter `freshKeptSpec`); in particular
merging an existing set with keys A, B with fresh records keyed B, C yields
keys A, B, C with B not duplicated, order preserved, C appended (second
conjunct). -/
theorem C4_merge_correctness :
    (∀ existing fresh : List Record,
      merge_records existing fresh =
        existing ++ freshKeptSpec (existing.map (fun item => item.upc)) fresh [])
    ∧ merge_records [recA, recB] [recB2, recC] = [recA, recB, recC] := by
  constructor
  · intro existing fresh
    unfold merge_records
    refine congrArg _ ?_
    exact addNewItems_eq_spec (existing.map (fun item => item.upc)) fresh
      (existing.map (fun item => item.upc)) [] (fun k => by simp)
  · decide

/-! ### Claim C5 -/

/-- C5: pipeline idempotence and grow-only persistence at the merge step.
First conjunct: merging fresh records whose keys are all already present
leaves the output set unchanged.  Second conjunct: re-merging the same fresh
records into the previous output is a fixed point, so a second run against
an unchanged catalogue produces identical output.  Third conjunct: the merge
only ever appends — every output starts with `existing` unchanged. -/
theorem C5_idempotence_grow_only :
    (∀ existing fresh : List Record,
      (∀ i ∈ fresh, i.upc ∈ existing.map (fun item => item.upc)) →
      merge_records existing fresh = existing)
    ∧ (∀ existing fresh : List Record,
      merge_records (merge_records existing fresh) fresh = merge_records existing fresh)
    ∧ (∀ existing fresh : List Record, ∃ t, merge_records existing fresh = existing ++ t) := by
  have hall : ∀ existing fresh : List Record,
      (∀ i ∈ fresh, i.upc ∈ existing.map (fun item => item.upc)) →
      merge_records existing fresh = existing := by
    intro existing fresh hmem
    unfold merge_records
    rw [addNewItems_all_dup fresh _ hmem, List.append_nil]
  refine ⟨hall, ?_, ?_⟩
  · intro existing fresh
    exact hall _ fresh (fun i hi => mem_merge_upcs fresh existing i hi)
  · intro existing fresh
    exact ⟨addNewItems fresh (existing.map (fun item => item.upc)), by rw [merge_records]⟩

/-- Witness for C5 at concrete inputs: the fresh record keyed B is already
present, so the merge returns the existing set unchanged. -/
theorem C5_idempotence_grow_only_witness :
    merge_records [recA, recB] [recB2] = [recA, recB] :=
  C5_idempotence_grow_only.1 [recA, recB] [recB2] (by decide)

/-! ### Claim C6 -/

/-- C6: the retry wrapper invokes the operation at most `retries` times
(first conjunct); if the first `j` attempts fail and attempt `j` succeeds it
returns that result after exactly `j + 1` invocations, having slept
`base * 2 ^ (k - 1)` between attempts `k` and `k + 1` (second conjunct, with
0-based delay index); and if all attempts fail, the last failure is
re-raised after exactly `retries` invocations (third conjunct). -/
theorem C6_retry_contract (op : Nat → Except E A) (retries : Nat) (base : ℚ) :
    (fetch_text_with_retry op retries base).calls ≤ retries
    ∧ (∀ j a, j < retries → (∀ k, k < j → ∃ e, op k = .error e) → op j = .ok a →
        fetch_text_with_retry op retries base =
          { result := .ok a, calls := j + 1,
            delays := (List.range j).map (fun k => base * 2 ^ k) })
    ∧ (1 ≤ retries → (∀ k, k < retries → ∃ e, op k = .error e) →
        ∃ e, op (retries - 1) = .error e ∧
          fetch_text_with_retry op retries base =
            { result := .error (some e), calls := retries,
              delays := (List.range (retries - 1)).map (fun k => base * 2 ^ k) }) := by
  refine ⟨retryLoop_calls_le op base retries 0 none, ?_, ?_⟩
  · intro j a hj hf hok
    have hmain := retryLoop_first_success op base j retries 0 none a hj
      (fun k hk => by simpa using hf k hk) (by simpa using hok)
    rw [fetch_text_with_retry, hmain]
    have hmap : List.map (fun k => base * 2 ^ (0 + k)) (List.range j)
        = List.map (fun k => base * 2 ^ k) (List.range j) :=
      List.map_congr_left (fun k _ => by rw [Nat.zero_add])
    rw [hmap]
  · intro h1 hf
    obtain ⟨e, he, hmain⟩ := retryLoop_all_fail op base retries 0 none h1
      (fun k hk => by simpa using hf k hk)
    refine ⟨e, by simpa using he, ?_⟩
    rw [fetch_text_with_retry, hmain]
    have hmap : List.map (fun k => base * 2 ^ (0 + k)) (List.range (retries - 1))
        = List.map (fun k => base * 2 ^ k) (List.range (retries - 1)) :=
      List.map_congr_left (fun k _ => by rw [Nat.zero_add])
    rw [hmap]

/-- Witness for C6: an operation failing twice then succeeding on the third
attempt returns the success after exactly 3 invocations with back-off sleeps
of 1 and 2 seconds. -/
theorem C6_retry_contract_witness :
    (fetch_text_with_retry op3 3 1).calls ≤ 3 ∧
    fetch_text_with_retry op3 3 1 =
      { result := .ok 7, calls := 3, delays := [1, 2] } := by
  refine ⟨(C6_retry_contract op3 3 1).1, ?_⟩
  have h := (C6_retry_contract op3 3 1).2.1 2 7 (by omega)
    (fun k hk => ⟨k, by unfold op3; rw [if_neg (by omega)]⟩) (by rfl)
  rw [h]
  refine congrArg _ ?_
  norm_num [List.range_succ]

/-! ### Claim C2 -/

/-- C2 counterexample: with every attempt failing AlreadyExists, the wrapper
around the remote parse call still invokes the operation three times rather
than surfacing the terminal failure after one attempt; retrying is not
restricted to transient failures. -/
theorem C2_counterexample :
    (parse_book_with_retry opAE 3 1).calls = 3 ∧
    (parse_book_with_retry opAE 3 1).calls ≠ 1 ∧
    (parse_book_with_retry opAE 3 1).result = .error (some .alreadyExists) :=
  ⟨rfl, by decide, rfl⟩

/-- C2 amended: `parse_book_with_retry` treats every `AioRpcError` alike,
including AlreadyExists and InvalidArgument — a failing attempt before the
budget is exhausted is always followed by another attempt, and after
`retries` failing attempts the last failure is re-raised; AlreadyExists is
mapped to "no record produced" only by the caller, after the wrapper
returns. -/
theorem C2_amended_uniform_retry (op : Nat → Except GrpcCode A) (retries : Nat) (base : ℚ)
    (h1 : 1 ≤ retries) (hf : ∀ k, k < retries → ∃ e, op k = .error e) :
    ∃ e, op (retries - 1) = .error e ∧
      parse_book_with_retry op retries base =
        { result := .error (some e), calls := retries,
          delays := (List.range (retries - 1)).map (fun k => base * 2 ^ k) } := by
  obtain ⟨e, he, hmain⟩ := retryLoop_all_fail op base retries 0 none h1
    (fun k hk => by simpa using hf k hk)
  refine ⟨e, by simpa using he, ?_⟩
  rw [parse_book_with_retry, hmain]
  have hmap : List.map (fun k => base * 2 ^ (0 + k)) (List.range (retries - 1))
      = List.map (fun k => base * 2 ^ k) (List.range (retries - 1)) :=
    List.map_congr_left (fun k _ => by rw [Nat.zero_add])
  rw [hmap]

/-- Witness for the amended C2 at a concrete operation that always fails
with AlreadyExists. -/
theorem C2_amended_uniform_retry_witness :
    ∃ e, opAE 2 = .error e ∧
      parse_book_with_retry opAE 3 1 =
        { result := .error (some e), calls := 3,
          delays := (List.range 2).map (fun k => (1 : ℚ) * 2 ^ k) } :=
  C2_amended_uniform_retry opAE 3 1 (by omega) (fun k _ => ⟨.alreadyExists, rfl⟩)

theorem ujSafe_ne_empty : ∀ b r, ujSafe b r ≠ "" := by
  intro b r h
  unfold ujSafe at h
  exact List.noConfusion (congrArg String.data h)

theorem mapM_extractPod_ok (uj : String → String → String) (current : String) :
    ∀ pods : List Pod, (∀ pod ∈ pods, pod.wellFormed) →
      ∃ books : List ListingBook,
        pods.mapM (extractPod uj current) = .ok books ∧ books.length = pods.length := by
  intro pods
  induction pods with
  | nil => exact fun _ => ⟨[], rfl, rfl⟩
  | cons pod rest ih =>
    intro h
    obtain ⟨a, name, link, ha, ht, hl⟩ := h pod (List.mem_cons_self pod rest)
    obtain ⟨books, hb, hlen⟩ := ih (fun q hq => h q (List.mem_cons_of_mem _ hq))
    refine ⟨{ name := name, book_url := uj current link } :: books, ?_, by simp [hlen]⟩
    have he : extractPod uj current pod = .ok { name := name, book_url := uj current link } := by
      simp only [extractPod, ha, ht, hl]
    rw [List.mapM_cons, he, hb]
    rfl

theorem mapM_extractPod_badLast (uj : String → String → String) (current : String) :
    ∀ front : List Pod, (∀ pod ∈ front, pod.wellFormed) →
      (front ++ [badPod]).mapM (extractPod uj current) =
        (.error "AttributeError" : Except String (List ListingBook)) := by
  intro front
  induction front with
  | nil => intro _; rfl
  | cons pod rest ih =>
    intro hfront
    obtain ⟨a, name, link, ha, ht, hl⟩ := hfront pod (List.mem_cons_self pod rest)
    have he : extractPod uj current pod = .ok { name := name, book_url := uj current link } := by
      simp only [extractPod, ha, ht, hl]
    rw [List.cons_append, List.mapM_cons, he,
      ih (fun q hq => hfront q (List.mem_cons_of_mem _ hq))]
    rfl

/-! ### Claim C7 -/

/-- C7 counterexample: on a listing page holding one well-formed and one
malformed entry, the extractor does not skip the malformed entry — the whole
page extraction fails with the propagated AttributeError, and the
well-formed entry is lost, contradicting the claimed lenient per-entry
skipping. -/
theorem C7_counterexample :
    parse_listing_page_with_next ujKeep pageWithBad "base" = .error "AttributeError" ∧
    parse_listing_page_with_next ujKeep pageWithBad "base" ≠
      .ok ([{ name := "Good", book_url := "good.html" }], none) := by
  refine ⟨rfl, ?_⟩
  intro h
  rw [show parse_listing_page_with_next ujKeep pageWithBad "base" = .error "AttributeError"
    from rfl] at h
  cases h

/-- C7 amended: listing-page extraction is strict, not lenient — one
malformed entry makes extraction of the whole page fail (second conjunct:
any page containing `badPod` errors), while a page whose entries are all
well-formed yields every entry (first conjunct: extraction succeeds with one
output per pod). -/
theorem C7_amended_strict_listing :
    (∀ (uj : String → String → String) (page : ListingPage) (current : String),
      (∀ pod ∈ page.pods, pod.wellFormed) →
      ∃ books, parse_listing_page_with_next uj page current =
          .ok (books, nextUrlOf uj current page.next_a) ∧
        books.length = page.pods.length)
    ∧ (∀ (uj : String → String → String) (current : String) (next_a : Option Anchor)
        (front : List Pod),
        (∀ pod ∈ front, pod.wellFormed) →
        ∃ e, parse_listing_page_with_next uj
          { pods := front ++ [badPod], next_a := next_a } current = .error e) := by
  constructor
  · intro uj page current h
    obtain ⟨books, hb, hlen⟩ := mapM_extractPod_ok uj current page.pods h
    refine ⟨books, ?_, hlen⟩
    unfold parse_listing_page_with_next
    rw [hb]
  · intro uj current next_a front hfront
    refine ⟨"AttributeError", ?_⟩
    unfold parse_listing_page_with_next
    rw [mapM_extractPod_badLast uj current front hfront]

/-- Witness for the amended C7: a page of two well-formed pods extracts both
entries, and prepending a well-formed pod to a malformed one still fails the
page. -/
theorem C7_amended_strict_listing_witness :
    (∃ books, parse_listing_page_with_next ujKeep
        { pods := [goodPod, goodPod2], next_a := none } "base" = .ok (books, none) ∧
      books.length = 2) ∧
    ∃ e, parse_listing_page_with_next ujKeep
      { pods := [goodPod] ++ [badPod], next_a := none } "base" = .error e := by
  have hwf2 : ∀ pod ∈ [goodPod, goodPod2], pod.wellFormed := by
    intro pod hp
    rcases List.mem_cons.mp hp with hh | hh
    · subst hh; exact ⟨_, _, _, rfl, rfl, rfl⟩
    · rcases List.mem_cons.mp hh with hh | hh
      · subst hh; exact ⟨_, _, _, rfl, rfl, rfl⟩
      · cases hh
  have hwf1 : ∀ pod ∈ [goodPod], pod.wellFormed := by
    intro pod hp
    rcases List.mem_cons.mp hp with hh | hh
    · subst hh; exact ⟨_, _, _, rfl, rfl, rfl⟩
    · cases hh
  constructor
  · exact C7_amended_strict_listing.1 ujKeep { pods := [goodPod, goodPod2], next_a := none }
      "base" hwf2
  · exact C7_amended_strict_listing.2 ujKeep "base" none [goodPod] hwf1

/-! ### Claim C8 -/

/-- C8: the Catalogue Walker stops exactly when the current page has no next
link or the number of visited pages reaches the ceiling (first conjunct, for
any catalogue: on success the page count never exceeds the ceiling, and
either the ceiling was reached or the walk ended without a next URL); on the
concrete 5-page chain whose fifth page has no next link it visits exactly 5
pages and returns the concatenation of all entries (second conjunct), and
with a ceiling of 3 it visits exactly 3 pages and returns the first three
pages of entries (third conjunct). -/
theorem C8_walker_termination :
    (∀ (uj : String → String → String) (world : String → ListingPage) (start : String)
       (max_pages : Nat) (bs : List ListingBook) (p : Nat) (fin : Option String),
       (∀ b r, uj b r ≠ "") → start ≠ "" →
       collect_all_books_from_catalog uj world start max_pages = .ok (bs, p, fin) →
       p ≤ max_pages ∧ (p = max_pages ∨ fin = none))
    ∧ collect_all_books_from_catalog ujKeep world5 "p1" 200 = .ok (books5all, 5, none)
    ∧ collect_all_books_from_catalog ujKeep world5 "p1" 3 =
        .ok (books5first3, 3, some "p4") := by
  refine ⟨?_, rfl, rfl⟩
  intro uj world start max_pages bs p fin hne hstart hrun
  refine ⟨collectLoop_pages_le uj world max_pages (some start) bs p fin hrun, ?_⟩
  exact collectLoop_stop uj world hne max_pages (some start) bs p fin
    (fun u hu => by injection hu with hu; rw [← hu]; exact hstart) hrun

/-- Witness for the general conjunct of C8: with a urljoin that never yields an
empty URL, a run over the 5-page chain (whose next URLs then miss the
catalogue, ending the walk after two pages) satisfies the bound and the stop
condition. -/
theorem C8_walker_termination_witness :
    (2 : Nat) ≤ 200 ∧ ((2 : Nat) = 200 ∨ (none : Option String) = none) :=
  C8_walker_termination.1 ujSafe world5 "p1" 200 _ 2 none ujSafe_ne_empty
    (by decide) rfl

theorem parseBookStep_dup (st : ServerState) (q : ProductPage) (r2 : Record) (so : Bool)
    (hq : parse_product_page q = .ok r2) (hmem : r2.upc ∈ st.seen_upcs) :
    parseBookStep st q so = (st, .alreadyExists) := by
  have hstep : parseBookStep st q so = commitSegment st r2 so := by
    simp only [parseBookStep, hq]
  rw [hstep]
  unfold commitSegment
  rw [if_pos hmem]

/-! ### Claim C3 -/

/-- C3 counterexample: the service constructor does not reload the persisted
store into `seen_upcs` — with record `recK` already on disk, a freshly
restarted service accepts and returns the same record again instead of
failing with AlreadyExists. -/
theorem C3_counterexample :
    (parseBookStep (initServer [recK]) pageK true).2 = .ok recK ∧
    (parseBookStep (initServer [recK]) pageK true).2 ≠ .alreadyExists := by
  refine ⟨rfl, ?_⟩
  intro h
  rw [show (parseBookStep (initServer [recK]) pageK true).2 = .ok recK from rfl] at h
  cases h

/-- C3 amended: after a restart the in-memory seen set starts empty and keys
on disk are not treated as seen — a ParseBook call whose content extracts a
key already present in the persisted store succeeds and returns the record
again; the store itself is left unchanged (the duplicate is not appended),
so only the RPC outcome, not the disk content, differs from the claim. -/
theorem C3_amended_restart (file : List Record) (p : ProductPage) (r : Record) (so : Bool)
    (hp : parse_product_page p = .ok r)
    (hb : ∃ b ∈ file, b.upc = r.upc) :
    parseBookStep (initServer file) p so =
      ({ seen_upcs := [r.upc], store := file }, .ok r) := by
  have hstep : parseBookStep (initServer file) p so = commitSegment (initServer file) r so := by
    simp only [parseBookStep, hp]
  rw [hstep]
  rcases commitSegment_cases (initServer file) r so with
    ⟨hmem, hcs⟩ | ⟨hmem, hex, hcs⟩ | ⟨hmem, hnodup, hsave, hcs⟩ | ⟨hmem, hnodup, hsave, hcs⟩
  · exact absurd hmem (List.not_mem_nil _)
  · rw [hcs]; rfl
  · obtain ⟨b, hbm, hbe⟩ := hb
    exact absurd hbe (hnodup b hbm)
  · obtain ⟨b, hbm, hbe⟩ := hb
    exact absurd hbe (hnodup b hbm)

/-- Witness for the amended C3 at the concrete restarted state. -/
theorem C3_amended_restart_witness :
    parseBookStep (initServer [recK]) pageK true =
      ({ seen_upcs := [recK.upc], store := [recK] }, .ok recK) :=
  C3_amended_restart [recK] pageK recK true parse_pageK
    ⟨recK, List.mem_singleton.mpr rfl, rfl⟩

/-! ### Claim C10 -/

/-- C10: the extracted key enters the in-memory seen set before the record
is persisted, and a save failure after that insertion does not remove it —
the call surfaces invalidArgument, no record with the key is persisted, and
every later call in the same service lifetime whose content extracts the
same key is rejected as a duplicate with the state unchanged. -/
theorem C10_failed_save_poisons_key (st : ServerState) (p q : ProductPage) (r r2 : Record)
    (so : Bool)
    (hp : parse_product_page p = .ok r)
    (hq : parse_product_page q = .ok r2)
    (hk : r2.upc = r.upc)
    (hseen : r.upc ∉ st.seen_upcs)
    (hstore : ∀ b ∈ st.store, b.upc ≠ r.upc) :
    (parseBookStep st p false).2 = .invalidArgument ∧
    r.upc ∈ (parseBookStep st p false).1.seen_upcs ∧
    (parseBookStep st p false).1.store = st.store ∧
    (∀ b ∈ (parseBookStep st p false).1.store, b.upc ≠ r.upc) ∧
    (parseBookStep (parseBookStep st p false).1 q so).2 = .alreadyExists ∧
    (parseBookStep (parseBookStep st p false).1 q so).1 = (parseBookStep st p false).1 := by
  have hstep : parseBookStep st p false = commitSegment st r false := by
    simp only [parseBookStep, hp]
  rcases commitSegment_cases st r false with
    ⟨hmem, hcs⟩ | ⟨hmem, hex, hcs⟩ | ⟨hmem, hnodup, hsave, hcs⟩ | ⟨hmem, hnodup, hsave, hcs⟩
  · exact absurd hmem hseen
  · obtain ⟨b, hbm, hbe⟩ := hex
    exact absurd hbe (hstore b hbm)
  · cases hsave
  · have h1 : parseBookStep st p false =
        ({ seen_upcs := r.upc :: st.seen_upcs, store := st.store }, .invalidArgument) := by
      rw [hstep, hcs]
    have h2 : parseBookStep
        ({ seen_upcs := r.upc :: st.seen_upcs, store := st.store } : ServerState) q so =
        (({ seen_upcs := r.upc :: st.seen_upcs, store := st.store } : ServerState),
          .alreadyExists) :=
      parseBookStep_dup _ q r2 so hq (by rw [hk]; exact List.mem_cons_self _ _)
    rw [h1]
    dsimp only
    exact ⟨rfl, List.mem_cons_self _ _, rfl, hstore, by rw [h2], by rw [h2]⟩

/-- Witness for C10 at a fresh service and the concrete page `pageK`. -/
theorem C10_failed_save_poisons_key_witness :
    (parseBookStep (initServer []) pageK false).2 = .invalidArgument ∧
    recK.upc ∈ (parseBookStep (initServer []) pageK false).1.seen_upcs ∧
    (parseBookStep (initServer []) pageK false).1.store = (initServer []).store ∧
    (∀ b ∈ (parseBookStep (initServer []) pageK false).1.store, b.upc ≠ recK.upc) ∧
    (parseBookStep (parseBookStep (initServer []) pageK false).1 pageK true).2
      = .alreadyExists ∧
    (parseBookStep (parseBookStep (initServer []) pageK false).1 pageK true).1
      = (parseBookStep (initServer []) pageK false).1 :=
  C10_failed_save_poisons_key (initServer []) pageK pageK recK recK true
    parse_pageK parse_pageK rfl (List.not_mem_nil _)
    (fun b hb => absurd hb (List.not_mem_nil b))

/-! ### Claim C1 -/

/-- C1: at-most-once acceptance.  First conjunct: in any interleaved run, if
one call finished with a successful Record, every other completed call whose
content extracts the same unique key (and whose save would succeed) finished
with AlreadyExists.  Second conjunct: submitting the same raw content as two
concurrent calls yields, under every schedule that completes both, exactly
one successful Record and one AlreadyExists outcome, in one order or the
other. -/
theorem C1_at_most_once_acceptance :
    (∀ (calls : List Call) (file : List Record) (sched : List Nat) (i j : Nat)
       (ci cj : Call) (ri rj : Record) (oj : RpcOutcome),
       calls[i]? = some ci → calls[j]? = some cj → i ≠ j →
       (runSched calls file sched).phases i = .finished (.ok ri) →
       parse_product_page cj.page = .ok rj → rj.upc = ri.upc → cj.saveOk = true →
       (runSched calls file sched).phases j = .finished oj →
       oj = .alreadyExists)
    ∧ (∀ (p : ProductPage) (r : Record) (file : List Record) (sched : List Nat),
       parse_product_page p = .ok r →
       Completes [{ page := p, saveOk := true }, { page := p, saveOk := true }]
         (runSched [{ page := p, saveOk := true }, { page := p, saveOk := true }] file sched) →
       ((runSched [{ page := p, saveOk := true }, { page := p, saveOk := true }]
            file sched).phases 0 = .finished (.ok r) ∧
        (runSched [{ page := p, saveOk := true }, { page := p, saveOk := true }]
            file sched).phases 1 = .finished .alreadyExists)
       ∨ ((runSched [{ page := p, saveOk := true }, { page := p, saveOk := true }]
            file sched).phases 0 = .finished .alreadyExists ∧
          (runSched [{ page := p, saveOk := true }, { page := p, saveOk := true }]
            file sched).phases 1 = .finished (.ok r))) := by
  constructor
  · intro calls file sched i j ci cj ri rj oj hci hcj hij hfi hparse hupc hsave hfj
    obtain ⟨hdom, hparsedI, hokI, haeI, hiaI, hseenI, huniq, hstoreSrc, hstorePre⟩ :=
      inv_run calls file sched
    cases oj with
    | alreadyExists => rfl
    | ok rj2 =>
      exfalso
      have h1 := (hokI j cj rj2 hcj hfj).1
      rw [hparse] at h1
      injection h1 with h1
      subst h1
      exact hij (huniq i j ci cj ri rj hci hcj hfi hfj hupc.symm)
    | invalidArgument =>
      exfalso
      have h2 := (hiaI j cj rj hcj hfj hparse).1
      rw [hsave] at h2
      exact Bool.noConfusion h2
  · intro p r file sched hp hcompl
    obtain ⟨hdom, hparsedI, hokI, haeI, hiaI, hseenI, huniq, hstoreSrc, hstorePre⟩ :=
      inv_run [{ page := p, saveOk := true }, { page := p, saveOk := true }] file sched
    obtain ⟨o0, h0⟩ := hcompl 0 (by simp)
    obtain ⟨o1, h1⟩ := hcompl 1 (by simp)
    have hc0 : ([{ page := p, saveOk := true }, { page := p, saveOk := true }] :
        List Call)[0]? = some { page := p, saveOk := true } := rfl
    have hc1 : ([{ page := p, saveOk := true }, { page := p, saveOk := true }] :
        List Call)[1]? = some { page := p, saveOk := true } := rfl
    have hchar : ∀ i o, ([{ page := p, saveOk := true }, { page := p, saveOk := true }] :
        List Call)[i]? = some { page := p, saveOk := true } →
        (runSched [{ page := p, saveOk := true }, { page := p, saveOk := true }]
          file sched).phases i = .finished o →
        o = .ok r ∨ o = .alreadyExists := by
      intro i o hci hfi
      cases o with
      | ok r0 =>
        have hpr : parse_product_page p = .ok r0 := (hokI i _ r0 hci hfi).1
        rw [hp] at hpr
        injection hpr with hpr
        exact Or.inl (by rw [hpr])
      | alreadyExists => exact Or.inr rfl
      | invalidArgument =>
        have h2 : ({ page := p, saveOk := true } : Call).saveOk = false :=
          (hiaI i _ r hci hfi hp).1
        exact Bool.noConfusion h2
    rcases hchar 0 o0 hc0 h0 with ho0 | ho0 <;> rcases hchar 1 o1 hc1 h1 with ho1 | ho1
    · exfalso
      rw [ho0] at h0
      rw [ho1] at h1
      exact absurd (huniq 0 1 _ _ r r hc0 hc1 h0 h1 rfl) (by decide)
    · subst ho0; subst ho1
      exact Or.inl ⟨h0, h1⟩
    · subst ho0; subst ho1
      exact Or.inr ⟨h0, h1⟩
    · exfalso
      rw [ho0] at h0
      rw [ho1] at h1
      obtain ⟨r0, hpr0, hmem⟩ := haeI 0 _ hc0 h0
      have hpr0b : parse_product_page p = .ok r0 := hpr0
      rw [hp] at hpr0b
      injection hpr0b with hpr0b
      subst hpr0b
      obtain ⟨i0, c0, rr, oo, hci0, hpro, hupc0, hfo, hneo⟩ := hseenI _ hmem
      have hi0lt : i0 < 2 := by
        by_contra hge
        rw [List.getElem?_eq_none (by simpa using Nat.le_of_not_lt hge)] at hci0
        cases hci0
      interval_cases i0
      · rw [h0] at hfo
        injection hfo with hfo
        exact hneo hfo.symm
      · rw [h1] at hfo
        injection hfo with hfo
        exact hneo hfo.symm

/-- Witness for C1: both concurrent submissions of `pageK` under the
schedule 0,0,1,1 complete, and the outcomes are exactly one success and one
AlreadyExists. -/
theorem C1_at_most_once_acceptance_witness :
    ((runSched [{ page := pageK, saveOk := true }, { page := pageK, saveOk := true }]
        [] [0, 0, 1, 1]).phases 0 = .finished (.ok recK) ∧
     (runSched [{ page := pageK, saveOk := true }, { page := pageK, saveOk := true }]
        [] [0, 0, 1, 1]).phases 1 = .finished .alreadyExists)
    ∨ ((runSched [{ page := pageK, saveOk := true }, { page := pageK, saveOk := true }]
        [] [0, 0, 1, 1]).phases 0 = .finished .alreadyExists ∧
       (runSched [{ page := pageK, saveOk := true }, { page := pageK, saveOk := true }]
        [] [0, 0, 1, 1]).phases 1 = .finished (.ok recK)) :=
  C1_at_most_once_acceptance.2 pageK recK [] [0, 0, 1, 1] parse_pageK
    (fun i hi =>
      match i, hi with
      | 0, _ => ⟨.ok recK, rfl⟩
      | 1, _ => ⟨.alreadyExists, rfl⟩)

/-! ### Claim C9 -/

/-- C9: no lost updates in the persistence step.  First conjunct: along any
schedule the persisted content only grows — after any further steps the
store extends what was already there (each save is effectively against the
freshest snapshot, the reload-append-save region being free of suspension
points).  Second conjunct: two concurrent calls for distinct keys absent
from the initial file both succeed, and the final store contains both
records as well as the entire initial file. -/
theorem C9_no_lost_updates :
    (∀ (calls : List Call) (file : List Record) (s t : List Nat),
       ∃ u, (runSched calls file (s ++ t)).server.store =
         (runSched calls file s).server.store ++ u)
    ∧ (∀ (p1 p2 : ProductPage) (r1 r2 : Record) (file : List Record) (sched : List Nat),
       parse_product_page p1 = .ok r1 → parse_product_page p2 = .ok r2 →
       r1.upc ≠ r2.upc →
       r1.upc ∉ file.map (fun b => b.upc) → r2.upc ∉ file.map (fun b => b.upc) →
       Completes [{ page := p1, saveOk := true }, { page := p2, saveOk := true }]
         (runSched [{ page := p1, saveOk := true }, { page := p2, saveOk := true }]
           file sched) →
       (runSched [{ page := p1, saveOk := true }, { page := p2, saveOk := true }]
           file sched).phases 0 = .finished (.ok r1) ∧
       (runSched [{ page := p1, saveOk := true }, { page := p2, saveOk := true }]
           file sched).phases 1 = .finished (.ok r2) ∧
       r1 ∈ (runSched [{ page := p1, saveOk := true }, { page := p2, saveOk := true }]
           file sched).server.store ∧
       r2 ∈ (runSched [{ page := p1, saveOk := true }, { page := p2, saveOk := true }]
           file sched).server.store ∧
       ∃ t, (runSched [{ page := p1, saveOk := true }, { page := p2, saveOk := true }]
           file sched).server.store = file ++ t) := by
  refine ⟨runSched_store_mono, ?_⟩
  intro p1 p2 r1 r2 file sched hp1 hp2 hne hf1 hf2 hcompl
  obtain ⟨hdom, hparsedI, hokI, haeI, hiaI, hseenI, huniq, hstoreSrc, hstorePre⟩ :=
    inv_run [{ page := p1, saveOk := true }, { page := p2, saveOk := true }] file sched
  obtain ⟨o0, h0⟩ := hcompl 0 (by simp)
  obtain ⟨o1, h1⟩ := hcompl 1 (by simp)
  have hc0 : ([{ page := p1, saveOk := true }, { page := p2, saveOk := true }] :
      List Call)[0]? = some { page := p1, saveOk := true } := rfl
  have hc1 : ([{ page := p1, saveOk := true }, { page := p2, saveOk := true }] :
      List Call)[1]? = some { page := p2, saveOk := true } := rfl
  have ho0 : o0 = .ok r1 := by
    cases o0 with
    | ok r0 =>
      have hpr : parse_product_page p1 = .ok r0 := (hokI 0 _ r0 hc0 h0).1
      rw [hp1] at hpr
      injection hpr with hpr
      rw [hpr]
    | invalidArgument =>
      have h2 : ({ page := p1, saveOk := true } : Call).saveOk = false :=
        (hiaI 0 _ r1 hc0 h0 hp1).1
      exact Bool.noConfusion h2
    | alreadyExists =>
      exfalso
      obtain ⟨r0, hpr0, hmem⟩ := haeI 0 _ hc0 h0
      have hpr0b : parse_product_page p1 = .ok r0 := hpr0
      rw [hp1] at hpr0b
      injection hpr0b with hpr0b
      subst hpr0b
      obtain ⟨i0, c0, rr, oo, hci0, hpro, hupc0, hfo, hneo⟩ := hseenI _ hmem
      have hi0lt : i0 < 2 := by
        by_contra hge
        rw [List.getElem?_eq_none (by simpa using Nat.le_of_not_lt hge)] at hci0
        cases hci0
      interval_cases i0
      · rw [h0] at hfo
        injection hfo with hfo
        exact hneo hfo.symm
      · rw [hc1] at hci0
        injection hci0 with hci0
        subst hci0
        have hpro2 : parse_product_page p2 = .ok rr := hpro
        rw [hp2] at hpro2
        injection hpro2 with hpro2
        exact hne ((congrArg Record.upc hpro2).trans hupc0).symm
  have ho1 : o1 = .ok r2 := by
    cases o1 with
    | ok r0 =>
      have hpr : parse_product_page p2 = .ok r0 := (hokI 1 _ r0 hc1 h1).1
      rw [hp2] at hpr
      injection hpr with hpr
      rw [hpr]
    | invalidArgument =>
      have h2 : ({ page := p2, saveOk := true } : Call).saveOk = false :=
        (hiaI 1 _ r2 hc1 h1 hp2).1
      exact Bool.noConfusion h2
    | alreadyExists =>
      exfalso
      obtain ⟨r0, hpr0, hmem⟩ := haeI 1 _ hc1 h1
      have hpr0b : parse_product_page p2 = .ok r0 := hpr0
      rw [hp2] at hpr0b
      injection hpr0b with hpr0b
      subst hpr0b
      obtain ⟨i0, c0, rr, oo, hci0, hpro, hupc0, hfo, hneo⟩ := hseenI _ hmem
      have hi0lt : i0 < 2 := by
        by_contra hge
        rw [List.getElem?_eq_none (by simpa using Nat.le_of_not_lt hge)] at hci0
        cases hci0
      interval_cases i0
      · rw [hc0] at hci0
        injection hci0 with hci0
        subst hci0
        have hpro2 : parse_product_page p1 = .ok rr := hpro
        rw [hp1] at hpro2
        injection hpro2 with hpro2
        exact hne ((congrArg Record.upc hpro2).trans hupc0)
      · rw [h1] at hfo
        injection hfo with hfo
        exact hneo hfo.symm
  subst ho0
  subst ho1
  refine ⟨h0, h1, ?_, ?_, hstorePre⟩
  · exact (hokI 0 _ r1 hc0 h0).2.2 rfl hf1
  · exact (hokI 1 _ r2 hc1 h1).2.2 rfl hf2

/-- Witness for C9: concurrent submissions of the distinct pages `pageK` and
`pageL` under the schedule 0,0,1,1 both succeed and both records are
persisted. -/
theorem C9_no_lost_updates_witness :
    (runSched [{ page := pageK, saveOk := true }, { page := pageL, saveOk := true }]
        [] [0, 0, 1, 1]).phases 0 = .finished (.ok recK) ∧
    (runSched [{ page := pageK, saveOk := true }, { page := pageL, saveOk := true }]
        [] [0, 0, 1, 1]).phases 1 = .finished (.ok recL) ∧
    recK ∈ (runSched [{ page := pageK, saveOk := true }, { page := pageL, saveOk := true }]
        [] [0, 0, 1, 1]).server.store ∧
    recL ∈ (runSched [{ page := pageK, saveOk := true }, { page := pageL, saveOk := true }]
        [] [0, 0, 1, 1]).server.store ∧
    ∃ t, (runSched [{ page := pageK, saveOk := true }, { page := pageL, saveOk := true }]
        [] [0, 0, 1, 1]).server.store = [] ++ t :=
  C9_no_lost_updates.2 pageK pageL recK recL [] [0, 0, 1, 1] parse_pageK parse_pageL
    (by decide) (List.not_mem_nil _) (List.not_mem_nil _)
    (fun i hi =>
      match i, hi with
      | 0, _ => ⟨.ok recK, rfl⟩
      | 1, _ => ⟨.ok recL, rfl⟩)

end BooksScraper
